import Mathlib

/-!
# EngineM bit primitives: `clibs/arm_asm.c` and `clibs/apple_asm.c`

A shallow embedding of the count-leading-zeros, count-trailing-zeros and
bit-reversal routines of the two C files, and theorems about them.

Conventions of the embedding:

* an `unsigned int` is a `Nat` below `2 ^ 32`, an `unsigned long long` a `Nat`
  below `2 ^ 64`; every operation that can leave the range (`<<`) is followed
  by an explicit `% 2 ^ w`;
* an `int` is an `Int`; the conversions C performs at `return` and at a call
  are the explicit functions `to_int`, `to_uint` and `to_ull`;
* the local state of a routine is the pair `(n, x)` (the counter and the
  operand) or `(result, x)` (the accumulator and the operand).
-/

namespace EngineM

/-! ## Conversions between C integer types -/

/-- Conversion of an unsigned value to `int` (32-bit two's complement), as done
by `return result;` in a function declared to return `int`: the value is
reduced modulo `2 ^ 32` and read as a signed number. -/
def to_int (v : Nat) : Int :=
  if v % 2 ^ 32 < 2 ^ 31 then ((v % 2 ^ 32 : Nat) : Int)
  else ((v % 2 ^ 32 : Nat) : Int) - 2 ^ 32

/-- Conversion of an `int` to `unsigned int`: reduction modulo `2 ^ 32`. -/
def to_uint (v : Int) : Nat := (v % 2 ^ 32).toNat

/-- Conversion of an `int` to `unsigned long long`: reduction modulo `2 ^ 64`
(a negative `int` is sign-extended). -/
def to_ull (v : Int) : Nat := (v % 2 ^ 64).toNat

/-! ## Fallback routines -/

/-- One line `if (x <= B) { n += s; x <<= s; }` of a fallback `clz`, on an
operand of width `w`. -/
def clz_probe (w B s : Nat) (st : Int × Nat) : Int × Nat :=
  if st.2 ≤ B then (st.1 + (s : Int), (st.2 <<< s) % 2 ^ w) else st

/-- One line `if (x & M) { n -= s; x >>= s; }` of a fallback `ctz`. -/
def ctz_probe (M s : Nat) (st : Int × Nat) : Int × Nat :=
  if st.2 &&& M ≠ 0 then (st.1 - (s : Int), st.2 >>> s) else st

/-- The body `result = (result << 1) | (x & 1); x >>= 1;` of the loop of a
fallback `rbit`, on an accumulator and operand of width `w`. -/
def rbit_body (w : Nat) (st : Nat × Nat) : Nat × Nat :=
  (((st.1 <<< 1) % 2 ^ w) ||| (st.2 &&& 1), st.2 >>> 1)

/-- Fallback `arm_clz` (`arm_asm.c`, lines 39-48). -/
def arm_clz (x : Nat) : Int :=
  if x = 0 then 32
  else
    let st : Int × Nat := (0, x)
    let st := clz_probe 32 0x0000FFFF 16 st
    let st := clz_probe 32 0x00FFFFFF 8 st
    let st := clz_probe 32 0x0FFFFFFF 4 st
    let st := clz_probe 32 0x3FFFFFFF 2 st
    let st := clz_probe 32 0x7FFFFFFF 1 st
    st.1

/-- Fallback `arm_ctz` (`arm_asm.c`, lines 50-59). -/
def arm_ctz (x : Nat) : Int :=
  if x = 0 then 32
  else
    let st : Int × Nat := (31, x)
    let st := ctz_probe 0x0000FFFF 16 st
    let st := ctz_probe 0x000000FF 8 st
    let st := ctz_probe 0x0000000F 4 st
    let st := ctz_probe 0x00000003 2 st
    if st.2 &&& 0x00000001 ≠ 0 then st.1 - 1 else st.1

/-- Fallback `arm_rbit` (`arm_asm.c`, lines 61-68): thirty-two rounds of the
loop body on `(result, x) = (0, x)`, then `return result;` as `int`. -/
def arm_rbit (x : Nat) : Int :=
  to_int (Nat.iterate (rbit_body 32) 32 (0, x)).1

/-- Fallback `apple_clz` (`apple_asm.c`, lines 44-54). -/
def apple_clz (x : Nat) : Int :=
  if x = 0 then 64
  else
    let st : Int × Nat := (0, x)
    let st := clz_probe 64 0x00000000FFFFFFFF 32 st
    let st := clz_probe 64 0x0000FFFFFFFFFFFF 16 st
    let st := clz_probe 64 0x00FFFFFFFFFFFFFF 8 st
    let st := clz_probe 64 0x0FFFFFFFFFFFFFFF 4 st
    let st := clz_probe 64 0x3FFFFFFFFFFFFFFF 2 st
    let st := clz_probe 64 0x7FFFFFFFFFFFFFFF 1 st
    st.1

/-- Fallback `apple_ctz` (`apple_asm.c`, lines 56-66). -/
def apple_ctz (x : Nat) : Int :=
  if x = 0 then 64
  else
    let st : Int × Nat := (63, x)
    let st := ctz_probe 0x00000000FFFFFFFF 32 st
    let st := ctz_probe 0x000000000000FFFF 16 st
    let st := ctz_probe 0x00000000000000FF 8 st
    let st := ctz_probe 0x000000000000000F 4 st
    let st := ctz_probe 0x0000000000000003 2 st
    if st.2 &&& 0x0000000000000001 ≠ 0 then st.1 - 1 else st.1

/-- Fallback `apple_rbit` (`apple_asm.c`, lines 68-75): sixty-four rounds of the
loop body on the `unsigned long long` pair `(0, x)`, then `return result;`
through the declared return type `int`. -/
def apple_rbit (x : Nat) : Int :=
  to_int (Nat.iterate (rbit_body 64) 64 (0, x)).1

/-! ## Native routines

The `__asm__` blocks of the two files issue the ARM instructions `CLZ` and
`RBIT` on a 32-bit register (`arm_asm.c`) or a 64-bit register
(`apple_asm.c`).  Their architectural meaning is given here directly on the
bits of the register. -/

/-- The ARM instruction `CLZ` on a `w`-bit register: the number of zero bits
above the highest set bit, `w` when the register is zero. -/
def hw_clz (w x : Nat) : Nat :=
  (((List.range w).reverse.map fun i => x.testBit i).takeWhile fun b => b == false).length

/-- The ARM instruction `RBIT` on a `w`-bit register: bit `i` of the operand
becomes bit `w - 1 - i` of the result. -/
def hw_rbit (w x : Nat) : Nat :=
  (List.range w).foldl (fun acc i => if x.testBit i then acc + 2 ^ (w - 1 - i) else acc) 0

/-- Native `arm_ctz` (`arm_asm.c`, lines 17-26): `rbit` then `clz` on a 32-bit
register, the `unsigned int` result returned as `int`. -/
def arm_ctz_native (x : Nat) : Int := to_int (hw_clz 32 (hw_rbit 32 x))

/-- Native `apple_ctz` (`apple_asm.c`, lines 19-28): `rbit` then `clz` on a
64-bit register, the `unsigned long long` result returned as `int`. -/
def apple_ctz_native (x : Nat) : Int := to_int (hw_clz 64 (hw_rbit 64 x))

/-- Native `arm_rbit` (`arm_asm.c`, lines 28-36): `rbit` on a 32-bit register,
the `unsigned int` result returned as `int`. -/
def arm_rbit_native (x : Nat) : Int := to_int (hw_rbit 32 x)

/-- Native `apple_rbit` (`apple_asm.c`, lines 31-39): `rbit` on a 64-bit
register, the `unsigned long long` result returned as `int`. -/
def apple_rbit_native (x : Nat) : Int := to_int (hw_rbit 64 x)

/-- State invariant of a fallback `ctz` after the probe of shift `s`: either
every probe so far was taken and the counter is `s - 1`, or a probe was skipped,
the counter stopped at a value allowed by `P`, and the low `s` bits of the
working copy are zero. -/
def CtzInv (P : Int → Prop) (s : Nat) (st : Int × Nat) : Prop :=
  st.1 = (s : Int) - 1 ∨ (P st.1 ∧ st.2 % 2 ^ s = 0)

/-- The values a fallback `arm_ctz` can return on a nonzero operand. -/
def CtzVals32 (n : Int) : Prop :=
  n = 0 ∨ n = 1 ∨ n = 3 ∨ n = 7 ∨ n = 15 ∨ n = 31

/-- The values a fallback `apple_ctz` can return on a nonzero operand. -/
def CtzVals64 (n : Int) : Prop :=
  n = 0 ∨ n = 1 ∨ n = 3 ∨ n = 7 ∨ n = 15 ∨ n = 31 ∨ n = 63

/-! ## Leading zeros: the invariant of the probe sequence -/

/-- State invariant of a fallback `clz` on the operand `x`: the counter is a
natural number `k`, the working copy is `x` shifted left by `k` without loss,
and the working copy is at least `lo`. -/
def ClzInv (w x lo : Nat) (st : Int × Nat) : Prop :=
  ∃ k : Nat, st.1 = (k : Int) ∧ st.2 = x * 2 ^ k ∧ lo ≤ st.2 ∧ st.2 < 2 ^ w

theorem clz_probe_inv {w B s x lo : Nat} {st : Int × Nat} (hs : s ≤ w)
    (hB : B + 1 = 2 ^ (w - s)) (hlo : 2 ^ (w - s) ≤ lo * 2 ^ s)
    (h : ClzInv w x lo st) : ClzInv w x (2 ^ (w - s)) (clz_probe w B s st) := by
  obtain ⟨k, hn, hx, hl, hu⟩ := h
  unfold clz_probe
  split
  · rename_i hle
    have hlt : st.2 < 2 ^ (w - s) := by omega
    have hmul : st.2 * 2 ^ s < 2 ^ w := by
      calc st.2 * 2 ^ s < 2 ^ (w - s) * 2 ^ s :=
            Nat.mul_lt_mul_of_pos_right hlt (by positivity)
        _ = 2 ^ w := by rw [← pow_add, Nat.sub_add_cancel hs]
    refine ⟨k + s, ?_, ?_, ?_, ?_⟩
    · simp [hn]
    · show (st.2 <<< s) % 2 ^ w = x * 2 ^ (k + s)
      rw [Nat.shiftLeft_eq, Nat.mod_eq_of_lt hmul, hx, pow_add, mul_assoc]
    · simp only [Nat.shiftLeft_eq, Nat.mod_eq_of_lt hmul]
      exact le_trans hlo (Nat.mul_le_mul_right _ hl)
    · exact Nat.mod_lt _ (by positivity)
  · rename_i hle
    exact ⟨k, hn, hx, by omega, hu⟩

theorem clz_final {w x k : Nat} (hx : x ≠ 0) (hlo : 2 ^ (w - 1) ≤ x * 2 ^ k)
    (hu : x * 2 ^ k < 2 ^ w) : k + Nat.log2 x = w - 1 := by
  have hpos : 0 < 2 ^ k := by positivity
  have hkw : k < w := by
    by_contra hge
    have h1 : 2 ^ w ≤ 2 ^ k := Nat.pow_le_pow_right (by norm_num) (by omega)
    have h2 : 2 ^ k ≤ x * 2 ^ k := Nat.le_mul_of_pos_left _ (Nat.pos_of_ne_zero hx)
    omega
  have hup : Nat.log2 x < w - k := by
    rw [Nat.log2_lt hx]
    apply Nat.lt_of_mul_lt_mul_right (a := 2 ^ k)
    rw [← pow_add, Nat.sub_add_cancel (by omega)]
    exact hu
  have hdn : w - 1 - k ≤ Nat.log2 x := by
    rw [Nat.le_log2 hx]
    apply Nat.le_of_mul_le_mul_right _ hpos
    rw [← pow_add, Nat.sub_add_cancel (by omega)]
    exact hlo
  omega

/-! ## Bit reversal: the invariant of the loop -/

/-- The accumulator `result` of a fallback `rbit` of width `w` when its loop
ends, before the conversion of `return`. -/
def rbit_acc (w x : Nat) : Nat := (Nat.iterate (rbit_body w) w (0, x)).1

theorem rbit_iterate_snd (w x : Nat) (k : Nat) :
    (Nat.iterate (rbit_body w) k (0, x)).2 = x >>> k := by
  induction k with
  | zero => simp
  | succ k ih =>
    rw [Function.iterate_succ_apply']
    show (Nat.iterate (rbit_body w) k (0, x)).2 >>> 1 = x >>> (k + 1)
    rw [ih, Nat.shiftRight_add]

theorem rbit_iterate_testBit (w x : Nat) (k : Nat) (hk : k ≤ w) (j : Nat) :
    (Nat.iterate (rbit_body w) k (0, x)).1.testBit j
      = (decide (j < k) && x.testBit (k - 1 - j)) := by
  induction k generalizing j with
  | zero => simp
  | succ k ih =>
    rw [Function.iterate_succ_apply']
    show ((((Nat.iterate (rbit_body w) k (0, x)).1 <<< 1) % 2 ^ w) |||
      ((Nat.iterate (rbit_body w) k (0, x)).2 &&& 1)).testBit j = _
    rw [rbit_iterate_snd, Nat.testBit_or, Nat.testBit_mod_two_pow, Nat.testBit_shiftLeft,
      Nat.testBit_and, Nat.testBit_shiftRight, ih (by omega)]
    cases j with
    | zero => simp
    | succ j =>
      have h1 : Nat.testBit 1 (j + 1) = false := by
        rw [← Bool.not_eq_true, Nat.testBit_one_eq_true_iff_self_eq_zero]
        omega
      have h2 : k - 1 - (j + 1 - 1) = k + 1 - 1 - (j + 1) := by omega
      rw [h1, h2, Nat.add_sub_cancel]
      by_cases hj : j < k
      · have h3 : j + 1 < w := by omega
        simp [hj, h3]
      · simp [hj]

theorem rbit_acc_testBit (w x j : Nat) :
    (rbit_acc w x).testBit j = (decide (j < w) && x.testBit (w - 1 - j)) :=
  rbit_iterate_testBit w x w le_rfl j

theorem rbit_acc_lt (w x : Nat) : rbit_acc w x < 2 ^ w := by
  apply Nat.lt_pow_two_of_testBit
  intro i hi
  rw [rbit_acc_testBit]
  have : ¬ i < w := by omega
  simp [this]

/-! ## The `RBIT` instruction and the loop compute the same reversal -/

theorem testBit_add_two_pow_of_low_clear (a m j : Nat)
    (h : ∀ i, i ≤ m → a.testBit i = false) :
    (a + 2 ^ m).testBit j = (a.testBit j || decide (j = m)) := by
  have hmod : a % 2 ^ (m + 1) = 0 := by
    apply Nat.eq_of_testBit_eq
    intro i
    rw [Nat.testBit_mod_two_pow]
    by_cases hi : i < m + 1
    · simp [hi, h i (by omega)]
    · simp [hi]
  obtain ⟨q, rfl⟩ : ∃ q, a = 2 ^ (m + 1) * q :=
    ⟨a / 2 ^ (m + 1), (Nat.mul_div_cancel' (Nat.dvd_of_mod_eq_zero hmod)).symm⟩
  have hlt : 2 ^ m < 2 ^ (m + 1) := Nat.pow_lt_pow_right (by norm_num) (by omega)
  rw [Nat.testBit_mul_pow_two_add q hlt j, Nat.testBit_mul_pow_two, Nat.testBit_two_pow]
  by_cases hj : j < m + 1
  · have h1 : ¬ j ≥ m + 1 := by omega
    simp only [hj, if_true, h1, decide_False, Bool.false_and, Bool.false_or]
    by_cases hjm : j = m
    · simp [hjm]
    · have : ¬ m = j := fun e => hjm e.symm
      simp [hjm, this]
  · have h1 : j ≥ m + 1 := by omega
    have h2 : ¬ j = m := by omega
    simp [hj, h1, h2]

theorem hw_rbit_fold_testBit (w x k : Nat) (hk : k ≤ w) (j : Nat) :
    ((List.range k).foldl
        (fun acc i => if x.testBit i then acc + 2 ^ (w - 1 - i) else acc) 0).testBit j
      = (decide (w - k ≤ j ∧ j < w) && x.testBit (w - 1 - j)) := by
  induction k generalizing j with
  | zero =>
    have h0 : ¬ (w - 0 ≤ j ∧ j < w) := by omega
    rw [decide_eq_false h0]
    simp
  | succ k ih =>
    rw [List.range_succ, List.foldl_append, List.foldl_cons, List.foldl_nil]
    have hlow : ∀ i, i ≤ w - 1 - k →
        ((List.range k).foldl
          (fun acc i => if x.testBit i then acc + 2 ^ (w - 1 - i) else acc) 0).testBit i
          = false := by
      intro i hi
      have h0 : ¬ (w - k ≤ i ∧ i < w) := by omega
      rw [ih (by omega), decide_eq_false h0]
      rfl
    by_cases hb : x.testBit k = true
    · rw [if_pos hb, testBit_add_two_pow_of_low_clear _ _ _ hlow, ih (by omega)]
      by_cases hj : j = w - 1 - k
      · have h0 : ¬ (w - k ≤ j ∧ j < w) := by omega
        have h1 : w - (k + 1) ≤ j ∧ j < w := by omega
        have h2 : w - 1 - j = k := by omega
        rw [decide_eq_false h0, decide_eq_true h1, decide_eq_true hj, h2, hb]
        rfl
      · rw [decide_eq_false hj, Bool.or_false]
        by_cases hr : w - k ≤ j ∧ j < w
        · have h1 : w - (k + 1) ≤ j ∧ j < w := by omega
          rw [decide_eq_true hr, decide_eq_true h1]
        · have h1 : ¬ (w - (k + 1) ≤ j ∧ j < w) := by omega
          rw [decide_eq_false hr, decide_eq_false h1]
    · rw [if_neg hb, ih (by omega)]
      by_cases hj : j = w - 1 - k
      · have h0 : ¬ (w - k ≤ j ∧ j < w) := by omega
        have h2 : w - 1 - j = k := by omega
        have hb2 : x.testBit k = false := by simpa using hb
        rw [decide_eq_false h0, h2, hb2]
        simp
      · by_cases hr : w - k ≤ j ∧ j < w
        · have h1 : w - (k + 1) ≤ j ∧ j < w := by omega
          rw [decide_eq_true hr, decide_eq_true h1]
        · have h1 : ¬ (w - (k + 1) ≤ j ∧ j < w) := by omega
          rw [decide_eq_false hr, decide_eq_false h1]

theorem hw_rbit_testBit (w x j : Nat) :
    (hw_rbit w x).testBit j = (decide (j < w) && x.testBit (w - 1 - j)) := by
  unfold hw_rbit
  rw [hw_rbit_fold_testBit w x w le_rfl j]
  by_cases hj : j < w
  · have : w - w ≤ j ∧ j < w := by omega
    simp [hj, this]
  · have : ¬ (w - w ≤ j ∧ j < w) := by omega
    simp [hj, this]

theorem rbit_acc_eq_hw_rbit (w x : Nat) : rbit_acc w x = hw_rbit w x := by
  apply Nat.eq_of_testBit_eq
  intro j
  rw [rbit_acc_testBit, hw_rbit_testBit]

/-! ## The conversions -/

theorem to_uint_to_int (v : Nat) : to_uint (to_int v) = v % 2 ^ 32 := by
  unfold to_uint to_int
  split <;> omega

theorem testBit_to_int (v i : Nat) (hi : i < 32) :
    Int.testBit (to_int v) i = v.testBit i := by
  have hr : v % 2 ^ 32 < 2 ^ 32 := Nat.mod_lt _ (by norm_num)
  have hb : (v % 2 ^ 32).testBit i = v.testBit i := by
    rw [Nat.testBit_mod_two_pow]
    simp [hi]
  unfold to_int
  split
  · show (v % 2 ^ 32).testBit i = v.testBit i
    exact hb
  · have hneg : ((v % 2 ^ 32 : Nat) : Int) - 2 ^ 32
        = Int.negSucc (2 ^ 32 - (v % 2 ^ 32 + 1)) := by
      rw [Int.negSucc_eq]
      omega
    rw [hneg]
    show (!(Nat.testBit (2 ^ 32 - (v % 2 ^ 32 + 1)) i)) = v.testBit i
    rw [Nat.testBit_two_pow_sub_succ hr, hb]
    simp [hi]

/-! ## The counters of the probe sequences -/

theorem clz_probe_fst_bounds (w B s : Nat) (st : Int × Nat) :
    st.1 ≤ (clz_probe w B s st).1 ∧ (clz_probe w B s st).1 ≤ st.1 + (s : Int) := by
  unfold clz_probe
  split
  · constructor
    · show st.1 ≤ st.1 + (s : Int)
      omega
    · exact le_refl _
  · constructor <;> omega

theorem ctz_probe_fst_bounds (M s : Nat) (st : Int × Nat) :
    st.1 - (s : Int) ≤ (ctz_probe M s st).1 ∧ (ctz_probe M s st).1 ≤ st.1 := by
  unfold ctz_probe
  split
  · constructor
    · exact le_refl _
    · show st.1 - (s : Int) ≤ st.1
      omega
  · constructor <;> omega

theorem and_mask_eq_mod (x M s : Nat) (hM : M + 1 = 2 ^ s) : x &&& M = x % 2 ^ s := by
  have h : M = 2 ^ s - 1 := by omega
  rw [h, Nat.and_pow_two_sub_one_eq_mod]

theorem ctz_probe_skip {M s : Nat} {st : Int × Nat} (hM : M + 1 = 2 ^ s)
    (hz : st.2 % 2 ^ s = 0) : ctz_probe M s st = st := by
  unfold ctz_probe
  rw [and_mask_eq_mod _ _ _ hM, hz]
  simp

theorem ctz_last_eq (st : Int × Nat) :
    (if st.2 &&& 0x1 ≠ 0 then st.1 - 1 else st.1) = (ctz_probe 0x1 1 st).1 := by
  unfold ctz_probe
  split <;> simp

theorem ctz_probe_inv {P : Int → Prop} {M s : Nat} {st : Int × Nat}
    (hM : M + 1 = 2 ^ s) (hP : P (((2 * s : Nat) : Int) - 1))
    (h : CtzInv P (2 * s) st) : CtzInv P s (ctz_probe M s st) := by
  rcases h with hA | ⟨hPn, hz⟩
  · by_cases hx : st.2 % 2 ^ s = 0
    · rw [ctz_probe_skip hM hx]
      exact Or.inr ⟨hA ▸ hP, hx⟩
    · left
      unfold ctz_probe
      rw [and_mask_eq_mod _ _ _ hM, if_pos hx]
      show st.1 - (s : Int) = (s : Int) - 1
      rw [hA]
      push_cast
      omega
  · have hdvd : 2 ^ s ∣ st.2 :=
      dvd_trans (pow_dvd_pow 2 (by omega)) (Nat.dvd_of_mod_eq_zero hz)
    have hx : st.2 % 2 ^ s = 0 := Nat.mod_eq_zero_of_dvd hdvd
    rw [ctz_probe_skip hM hx]
    exact Or.inr ⟨hPn, hx⟩

/-! ## Leading zeros and the highest set bit -/

theorem arm_clz_add_log2 (x : Nat) (h0 : x ≠ 0) (hx : x < 2 ^ 32) :
    arm_clz x + (Nat.log2 x : Int) = 31 := by
  have i0 : ClzInv 32 x 1 ((0 : Int), x) := ⟨0, rfl, by simp, by omega, hx⟩
  have i1 := clz_probe_inv (B := 0x0000FFFF) (s := 16) (by norm_num) (by norm_num)
    (by norm_num) i0
  have i2 := clz_probe_inv (B := 0x00FFFFFF) (s := 8) (by norm_num) (by norm_num)
    (by norm_num) i1
  have i3 := clz_probe_inv (B := 0x0FFFFFFF) (s := 4) (by norm_num) (by norm_num)
    (by norm_num) i2
  have i4 := clz_probe_inv (B := 0x3FFFFFFF) (s := 2) (by norm_num) (by norm_num)
    (by norm_num) i3
  have i5 := clz_probe_inv (B := 0x7FFFFFFF) (s := 1) (by norm_num) (by norm_num)
    (by norm_num) i4
  obtain ⟨k, hn, hxk, hl, hu⟩ := i5
  have hk := clz_final h0 (hxk ▸ hl) (hxk ▸ hu)
  simp only [arm_clz, if_neg h0]
  rw [hn]
  omega

theorem apple_clz_add_log2 (x : Nat) (h0 : x ≠ 0) (hx : x < 2 ^ 64) :
    apple_clz x + (Nat.log2 x : Int) = 63 := by
  have i0 : ClzInv 64 x 1 ((0 : Int), x) := ⟨0, rfl, by simp, by omega, hx⟩
  have i1 := clz_probe_inv (B := 0x00000000FFFFFFFF) (s := 32) (by norm_num) (by norm_num)
    (by norm_num) i0
  have i2 := clz_probe_inv (B := 0x0000FFFFFFFFFFFF) (s := 16) (by norm_num) (by norm_num)
    (by norm_num) i1
  have i3 := clz_probe_inv (B := 0x00FFFFFFFFFFFFFF) (s := 8) (by norm_num) (by norm_num)
    (by norm_num) i2
  have i4 := clz_probe_inv (B := 0x0FFFFFFFFFFFFFFF) (s := 4) (by norm_num) (by norm_num)
    (by norm_num) i3
  have i5 := clz_probe_inv (B := 0x3FFFFFFFFFFFFFFF) (s := 2) (by norm_num) (by norm_num)
    (by norm_num) i4
  have i6 := clz_probe_inv (B := 0x7FFFFFFFFFFFFFFF) (s := 1) (by norm_num) (by norm_num)
    (by norm_num) i5
  obtain ⟨k, hn, hxk, hl, hu⟩ := i6
  have hk := clz_final h0 (hxk ▸ hl) (hxk ▸ hu)
  simp only [apple_clz, if_neg h0]
  rw [hn]
  omega

theorem testBit_log2_self (r : Nat) (h : r ≠ 0) : r.testBit (Nat.log2 r) = true := by
  have h1 : 2 ^ Nat.log2 r ≤ r := Nat.log2_self_le h
  have h2 : r < 2 ^ (Nat.log2 r + 1) := Nat.lt_log2_self
  have hd : r / 2 ^ Nat.log2 r = 1 := by
    apply Nat.div_eq_of_lt_le
    · rw [Nat.one_mul]
      exact h1
    · rw [pow_succ] at h2
      omega
  rw [Nat.testBit_to_div_mod, hd]
  rfl

theorem testBit_above_log2 (r j : Nat) (hj : Nat.log2 r < j) : r.testBit j = false :=
  Nat.testBit_lt_two_pow
    (lt_of_lt_of_le Nat.lt_log2_self (Nat.pow_le_pow_right (by norm_num) hj))

theorem log2_lt_of_lt (r w : Nat) (h : r ≠ 0) (hr : r < 2 ^ w) : Nat.log2 r < w :=
  (Nat.log2_lt h).2 hr

theorem rbit_acc_involutive (w x : Nat) (hx : x < 2 ^ w) :
    rbit_acc w (rbit_acc w x) = x := by
  apply Nat.eq_of_testBit_eq
  intro j
  rw [rbit_acc_testBit, rbit_acc_testBit]
  by_cases hj : j < w
  · have h1 : w - 1 - j < w := by omega
    have h2 : w - 1 - (w - 1 - j) = j := by omega
    simp [hj, h1, h2]
  · have hlt : x < 2 ^ j :=
      lt_of_lt_of_le hx (Nat.pow_le_pow_right (by norm_num) (by omega))
    simp [hj, Nat.testBit_lt_two_pow hlt]

theorem rbit_acc_zero (w : Nat) : rbit_acc w 0 = 0 := by
  apply Nat.eq_of_testBit_eq
  intro j
  rw [rbit_acc_testBit]
  simp

theorem rbit_acc_ne_zero (w x : Nat) (h0 : x ≠ 0) (hx : x < 2 ^ w) : rbit_acc w x ≠ 0 := by
  intro h
  have h1 := rbit_acc_involutive w x hx
  rw [h, rbit_acc_zero] at h1
  exact h0 h1.symm

theorem to_uint_arm_rbit (x : Nat) : to_uint (arm_rbit x) = rbit_acc 32 x := by
  show to_uint (to_int (rbit_acc 32 x)) = _
  rw [to_uint_to_int, Nat.mod_eq_of_lt (rbit_acc_lt 32 x)]

theorem to_int_mod (v : Nat) : to_int (v % 2 ^ 32) = to_int v := by
  unfold to_int
  rw [Nat.mod_mod]

theorem to_int_range (v : Nat) : -2 ^ 31 ≤ to_int v ∧ to_int v < 2 ^ 31 := by
  unfold to_int
  split <;> omega

theorem rbit_acc_64_low (x : Nat) : rbit_acc 64 x % 2 ^ 32 = rbit_acc 32 (x >>> 32) := by
  apply Nat.eq_of_testBit_eq
  intro j
  rw [Nat.testBit_mod_two_pow, rbit_acc_testBit, rbit_acc_testBit, Nat.testBit_shiftRight]
  by_cases hj : j < 32
  · have h1 : j < 64 := by omega
    have h2 : 64 - 1 - j = 32 + (32 - 1 - j) := by omega
    simp [hj, h1, h2]
  · simp [hj]

theorem testBit_of_rbit_acc (w x j : Nat) (hx : x < 2 ^ w) :
    x.testBit j = (decide (j < w) && (rbit_acc w x).testBit (w - 1 - j)) := by
  have h := rbit_acc_testBit w (rbit_acc w x) j
  rw [rbit_acc_involutive w x hx] at h
  exact h

theorem to_int_eq_self_iff (r : Nat) (hr : r < 2 ^ 32) :
    to_int r = (r : Int) ↔ r < 2 ^ 31 := by
  unfold to_int
  rw [Nat.mod_eq_of_lt hr]
  split
  · constructor <;> intro <;> omega
  · constructor <;> intro <;> omega

theorem lt_half_iff_testBit (r : Nat) (hr : r < 2 ^ 32) :
    r < 2 ^ 31 ↔ r.testBit 31 = false := by
  constructor
  · intro h
    exact Nat.testBit_lt_two_pow h
  · intro h
    apply Nat.lt_pow_two_of_testBit
    intro i hi
    by_cases h31 : i = 31
    · rw [h31]
      exact h
    · exact Nat.testBit_lt_two_pow
        (lt_of_lt_of_le hr (Nat.pow_le_pow_right (by norm_num) (by omega)))

/-! ## Claims

Evaluating the sixty-four rounds of `apple_rbit` on a concrete operand needs a
deeper recursion than the default. -/

set_option maxRecDepth 8000


/-- C1: for every nonzero 64-bit `x` the fallback `apple_clz x` is
`63 - floor(log2 x)`; in particular `apple_clz 1 = 63` and
`apple_clz 0x8000000000000000 = 0`. -/
theorem apple_clz_eq_log2 (x : Nat) (h0 : x ≠ 0) (hx : x < 2 ^ 64) :
    apple_clz x = 63 - (Nat.log2 x : Int) ∧ apple_clz 1 = 63 ∧
      apple_clz 0x8000000000000000 = 0 := by
  refine ⟨?_, by decide, by decide⟩
  have i0 : ClzInv 64 x 1 ((0 : Int), x) := ⟨0, rfl, by simp, by omega, hx⟩
  have i1 := clz_probe_inv (B := 0x00000000FFFFFFFF) (s := 32) (by norm_num) (by norm_num)
    (by norm_num) i0
  have i2 := clz_probe_inv (B := 0x0000FFFFFFFFFFFF) (s := 16) (by norm_num) (by norm_num)
    (by norm_num) i1
  have i3 := clz_probe_inv (B := 0x00FFFFFFFFFFFFFF) (s := 8) (by norm_num) (by norm_num)
    (by norm_num) i2
  have i4 := clz_probe_inv (B := 0x0FFFFFFFFFFFFFFF) (s := 4) (by norm_num) (by norm_num)
    (by norm_num) i3
  have i5 := clz_probe_inv (B := 0x3FFFFFFFFFFFFFFF) (s := 2) (by norm_num) (by norm_num)
    (by norm_num) i4
  have i6 := clz_probe_inv (B := 0x7FFFFFFFFFFFFFFF) (s := 1) (by norm_num) (by norm_num)
    (by norm_num) i5
  obtain ⟨k, hn, hxk, hl, hu⟩ := i6
  have hk := clz_final h0 (hxk ▸ hl) (hxk ▸ hu)
  simp only [apple_clz, if_neg h0]
  rw [hn]
  omega

/-- Instance of C1 at `x = 1`. -/
theorem apple_clz_eq_log2_witness :
    (1 : Nat) ≠ 0 ∧ (1 : Nat) < 2 ^ 64 ∧
      (apple_clz 1 = 63 - (Nat.log2 1 : Int) ∧ apple_clz 1 = 63 ∧
        apple_clz 0x8000000000000000 = 0) :=
  ⟨by decide, by decide, apple_clz_eq_log2 1 (by decide) (by decide)⟩

/-- C2: for every nonzero 32-bit `x` the fallback `arm_clz x` is
`31 - floor(log2 x)`, the position counted from the top of the highest set bit
of `x`; it is `0` when bit 31 of `x` is set. -/
theorem arm_clz_eq_log2 (x : Nat) (h0 : x ≠ 0) (hx : x < 2 ^ 32) :
    arm_clz x = 31 - (Nat.log2 x : Int) ∧ (x.testBit 31 = true → arm_clz x = 0) := by
  have i0 : ClzInv 32 x 1 ((0 : Int), x) := ⟨0, rfl, by simp, by omega, hx⟩
  have i1 := clz_probe_inv (B := 0x0000FFFF) (s := 16) (by norm_num) (by norm_num)
    (by norm_num) i0
  have i2 := clz_probe_inv (B := 0x00FFFFFF) (s := 8) (by norm_num) (by norm_num)
    (by norm_num) i1
  have i3 := clz_probe_inv (B := 0x0FFFFFFF) (s := 4) (by norm_num) (by norm_num)
    (by norm_num) i2
  have i4 := clz_probe_inv (B := 0x3FFFFFFF) (s := 2) (by norm_num) (by norm_num)
    (by norm_num) i3
  have i5 := clz_probe_inv (B := 0x7FFFFFFF) (s := 1) (by norm_num) (by norm_num)
    (by norm_num) i4
  obtain ⟨k, hn, hxk, hl, hu⟩ := i5
  have hk := clz_final h0 (hxk ▸ hl) (hxk ▸ hu)
  have hmain : arm_clz x = 31 - (Nat.log2 x : Int) := by
    simp only [arm_clz, if_neg h0]
    rw [hn]
    omega
  refine ⟨hmain, fun hb => ?_⟩
  have hge : 31 ≤ Nat.log2 x := (Nat.le_log2 h0).2 (Nat.testBit_implies_ge hb)
  rw [hmain]
  omega

/-- Instance of C2 at `x = 0x80000000`, whose bit 31 is set. -/
theorem arm_clz_eq_log2_witness :
    (0x80000000 : Nat) ≠ 0 ∧ (0x80000000 : Nat) < 2 ^ 32 ∧
      (arm_clz 0x80000000 = 31 - (Nat.log2 0x80000000 : Int) ∧
        (Nat.testBit 0x80000000 31 = true → arm_clz 0x80000000 = 0)) :=
  ⟨by decide, by decide, arm_clz_eq_log2 0x80000000 (by decide) (by decide)⟩

/-- C3: the fallback `arm_ctz` does not return the index of the lowest set bit:
on `x = 1`, whose lowest set bit is bit 0, it returns `15`. -/
theorem arm_ctz_one :
    arm_ctz 1 = 15 ∧ Nat.testBit 1 0 = true ∧
      ¬ ∀ x : Nat, x ≠ 0 → x < 2 ^ 32 →
        ∃ k : Nat, arm_ctz x = (k : Int) ∧ x.testBit k = true ∧
          ∀ j, j < k → x.testBit j = false := by
  refine ⟨by decide, by decide, fun h => ?_⟩
  obtain ⟨k, hk, hb, -⟩ := h 1 (by decide) (by decide)
  have h15 : arm_ctz 1 = 15 := by decide
  have hk15 : k = 15 := by omega
  subst hk15
  exact absurd hb (by decide)

/-- C4: the fallback `apple_ctz` does not return the index of the lowest set
bit: on `x = 1`, whose lowest set bit is bit 0, it returns `31`.  The stated
instance `apple_ctz 0x8000000000000000 = 63` does hold. -/
theorem apple_ctz_one :
    apple_ctz 1 = 31 ∧ Nat.testBit 1 0 = true ∧ apple_ctz 0x8000000000000000 = 63 ∧
      ¬ ∀ x : Nat, x ≠ 0 → x < 2 ^ 64 →
        ∃ k : Nat, apple_ctz x = (k : Int) ∧ x.testBit k = true ∧
          ∀ j, j < k → x.testBit j = false := by
  refine ⟨by decide, by decide, by decide, fun h => ?_⟩
  obtain ⟨k, hk, hb, -⟩ := h 1 (by decide) (by decide)
  have h31 : apple_ctz 1 = 31 := by decide
  have hk31 : k = 31 := by omega
  subst hk31
  exact absurd hb (by decide)

/-- C5: for every `x` (in particular every 32-bit `x`) and every `i` in `0..31`,
bit `i` of the `int` returned by the fallback `arm_rbit x` (in two's complement,
and equally in its `unsigned int` bit pattern) is bit `31 - i` of `x`; the bit
pattern of `arm_rbit 1` is `0x80000000`. -/
theorem arm_rbit_testBit (x i : Nat) (hi : i < 32) :
    Int.testBit (arm_rbit x) i = x.testBit (31 - i) ∧
      (to_uint (arm_rbit x)).testBit i = x.testBit (31 - i) ∧
      to_uint (arm_rbit 1) = 0x80000000 := by
  have hacc : (rbit_acc 32 x).testBit i = x.testBit (31 - i) := by
    rw [rbit_acc_testBit]
    simp [hi]
  refine ⟨?_, ?_, by decide⟩
  · show Int.testBit (to_int (rbit_acc 32 x)) i = _
    rw [testBit_to_int _ _ hi, hacc]
  · show (to_uint (to_int (rbit_acc 32 x))).testBit i = _
    rw [to_uint_to_int, Nat.mod_eq_of_lt (rbit_acc_lt 32 x), hacc]

/-- Instance of C5 at `x = 1`, `i = 31`. -/
theorem arm_rbit_testBit_witness :
    (31 : Nat) < 32 ∧
      (Int.testBit (arm_rbit 1) 31 = Nat.testBit 1 (31 - 31) ∧
        (to_uint (arm_rbit 1)).testBit 31 = Nat.testBit 1 (31 - 31) ∧
        to_uint (arm_rbit 1) = 0x80000000) :=
  ⟨by decide, arm_rbit_testBit 1 31 (by decide)⟩

/-- C6: the fallback `apple_rbit` does not reverse the 64 bits of its operand:
`apple_rbit 1 = 0`, so bit 63 of the returned value is clear although bit 0 of
the operand is set.  The stated instance `apple_rbit 0 = 0` does hold. -/
theorem apple_rbit_one :
    apple_rbit 1 = 0 ∧ rbit_acc 64 1 = 0x8000000000000000 ∧ apple_rbit 0 = 0 ∧
      ¬ ∀ x i : Nat, x < 2 ^ 64 → i < 64 →
        Int.testBit (apple_rbit x) i = x.testBit (63 - i) := by
  have h1 : apple_rbit 1 = 0 := by decide
  refine ⟨h1, by decide, by decide, fun h => ?_⟩
  have hb := h 1 63 (by decide) (by decide)
  rw [h1] at hb
  exact absurd hb (by decide)

/-- C7: on a zero operand the fallback zero-counting functions return the full
bit width. -/
theorem clz_ctz_zero :
    arm_clz 0 = 32 ∧ arm_ctz 0 = 32 ∧ apple_clz 0 = 64 ∧ apple_ctz 0 = 64 := by
  decide

/-- C8: 32-bit bit reversal is an involution: for every 32-bit `x`,
`arm_rbit (arm_rbit x) == x`, the `int` of the inner call being converted to
`unsigned int` at the outer call and the `int` of the outer call at the
comparison with `x`; equivalently the outer call returns `x` read as `int`. -/
theorem arm_rbit_involutive (x : Nat) (hx : x < 2 ^ 32) :
    to_uint (arm_rbit (to_uint (arm_rbit x))) = x ∧
      arm_rbit (to_uint (arm_rbit x)) = to_int x := by
  have hin : to_uint (arm_rbit x) = rbit_acc 32 x := by
    show to_uint (to_int (rbit_acc 32 x)) = _
    rw [to_uint_to_int, Nat.mod_eq_of_lt (rbit_acc_lt 32 x)]
  have hrev : rbit_acc 32 (rbit_acc 32 x) = x := by
    apply Nat.eq_of_testBit_eq
    intro j
    rw [rbit_acc_testBit, rbit_acc_testBit]
    by_cases hj : j < 32
    · have h1 : 32 - 1 - j < 32 := by omega
      have h2 : 32 - 1 - (32 - 1 - j) = j := by omega
      simp [hj, h1, h2]
    · have hlt : x < 2 ^ j :=
        lt_of_lt_of_le hx (Nat.pow_le_pow_right (by norm_num) (by omega))
      simp [hj, Nat.testBit_lt_two_pow hlt]
  have hout : arm_rbit (to_uint (arm_rbit x)) = to_int x := by
    rw [hin]
    show to_int (rbit_acc 32 (rbit_acc 32 x)) = to_int x
    rw [hrev]
  refine ⟨?_, hout⟩
  rw [hout, to_uint_to_int, Nat.mod_eq_of_lt hx]

/-- Instance of C8 at `x = 1`. -/
theorem arm_rbit_involutive_witness :
    (1 : Nat) < 2 ^ 32 ∧
      (to_uint (arm_rbit (to_uint (arm_rbit 1))) = 1 ∧
        arm_rbit (to_uint (arm_rbit 1)) = to_int 1) :=
  ⟨by decide, arm_rbit_involutive 1 (by decide)⟩

/-- C9: the fallback `apple_rbit` is not an involution: on `x = 1` the inner
call returns `0`, and so does the outer call, which differs from `1`. -/
theorem apple_rbit_twice_one :
    apple_rbit 1 = 0 ∧ to_ull (apple_rbit (to_ull (apple_rbit 1))) = 0 ∧
      ¬ ∀ x : Nat, x < 2 ^ 64 → to_ull (apple_rbit (to_ull (apple_rbit x))) = x := by
  have h1 : to_ull (apple_rbit (to_ull (apple_rbit 1))) = 0 := by decide
  refine ⟨by decide, h1, fun h => ?_⟩
  have h2 := h 1 (by decide)
  rw [h1] at h2
  exact absurd h2 (by decide)

/-- C10: the two paths of count-trailing-zeros disagree: on `x = 1` the native
paths (`rbit` then `clz`) return `0`, the fallback `arm_ctz` returns `15` and
the fallback `apple_ctz` returns `31`. -/
theorem ctz_paths_differ_at_one :
    arm_ctz_native 1 = 0 ∧ arm_ctz 1 = 15 ∧ apple_ctz_native 1 = 0 ∧ apple_ctz 1 = 31 ∧
      ¬ ((∀ x : Nat, x < 2 ^ 32 → arm_ctz x = arm_ctz_native x) ∧
          (∀ x : Nat, x < 2 ^ 64 → apple_ctz x = apple_ctz_native x)) := by
  refine ⟨by decide, by decide, by decide, by decide, fun h => ?_⟩
  exact absurd (h.1 1 (by decide)) (by decide)

/-- C11: the two paths of reverse_bits agree on every input: the fallback
`arm_rbit x` is the `int` the native `arm_rbit` returns (the `RBIT` instruction
on a 32-bit register, converted to `int`), and the fallback `apple_rbit y` is
the `int` the native `apple_rbit` returns (`RBIT` on a 64-bit register,
converted to `int`). -/
theorem rbit_paths_agree (x y : Nat) :
    arm_rbit x = arm_rbit_native x ∧ apple_rbit y = apple_rbit_native y := by
  constructor
  · show to_int (rbit_acc 32 x) = to_int (hw_rbit 32 x)
    rw [rbit_acc_eq_hw_rbit]
  · show to_int (rbit_acc 64 y) = to_int (hw_rbit 64 y)
    rw [rbit_acc_eq_hw_rbit]

/-- C13: the fallback zero-counting functions return a count in `[0, N]` on
every operand: `arm_clz` and `arm_ctz` in `[0, 32]`, `apple_clz` and `apple_ctz`
in `[0, 64]`. -/
theorem count_in_range (x y : Nat) :
    (0 ≤ arm_clz x ∧ arm_clz x ≤ 32) ∧ (0 ≤ arm_ctz x ∧ arm_ctz x ≤ 32) ∧
      (0 ≤ apple_clz y ∧ apple_clz y ≤ 64) ∧ (0 ≤ apple_ctz y ∧ apple_ctz y ≤ 64) := by
  refine ⟨?_, ?_, ?_, ?_⟩
  · by_cases h : x = 0
    · subst h
      decide
    · simp only [arm_clz, if_neg h]
      have h0 : ((0 : Int), x).1 = 0 := rfl
      generalize ((0 : Int), x) = st0 at h0 ⊢
      have b1 := clz_probe_fst_bounds 32 0x0000FFFF 16 st0
      generalize clz_probe 32 0x0000FFFF 16 st0 = st1 at b1 ⊢
      have b2 := clz_probe_fst_bounds 32 0x00FFFFFF 8 st1
      generalize clz_probe 32 0x00FFFFFF 8 st1 = st2 at b2 ⊢
      have b3 := clz_probe_fst_bounds 32 0x0FFFFFFF 4 st2
      generalize clz_probe 32 0x0FFFFFFF 4 st2 = st3 at b3 ⊢
      have b4 := clz_probe_fst_bounds 32 0x3FFFFFFF 2 st3
      generalize clz_probe 32 0x3FFFFFFF 2 st3 = st4 at b4 ⊢
      have b5 := clz_probe_fst_bounds 32 0x7FFFFFFF 1 st4
      generalize clz_probe 32 0x7FFFFFFF 1 st4 = st5 at b5 ⊢
      omega
  · by_cases h : x = 0
    · subst h
      decide
    · simp only [arm_ctz, if_neg h]
      have h0 : ((31 : Int), x).1 = 31 := rfl
      generalize ((31 : Int), x) = st0 at h0 ⊢
      have b1 := ctz_probe_fst_bounds 0x0000FFFF 16 st0
      generalize ctz_probe 0x0000FFFF 16 st0 = st1 at b1 ⊢
      have b2 := ctz_probe_fst_bounds 0x000000FF 8 st1
      generalize ctz_probe 0x000000FF 8 st1 = st2 at b2 ⊢
      have b3 := ctz_probe_fst_bounds 0x0000000F 4 st2
      generalize ctz_probe 0x0000000F 4 st2 = st3 at b3 ⊢
      have b4 := ctz_probe_fst_bounds 0x00000003 2 st3
      generalize ctz_probe 0x00000003 2 st3 = st4 at b4 ⊢
      split <;> omega
  · by_cases h : y = 0
    · subst h
      decide
    · simp only [apple_clz, if_neg h]
      have h0 : ((0 : Int), y).1 = 0 := rfl
      generalize ((0 : Int), y) = st0 at h0 ⊢
      have b1 := clz_probe_fst_bounds 64 0x00000000FFFFFFFF 32 st0
      generalize clz_probe 64 0x00000000FFFFFFFF 32 st0 = st1 at b1 ⊢
      have b2 := clz_probe_fst_bounds 64 0x0000FFFFFFFFFFFF 16 st1
      generalize clz_probe 64 0x0000FFFFFFFFFFFF 16 st1 = st2 at b2 ⊢
      have b3 := clz_probe_fst_bounds 64 0x00FFFFFFFFFFFFFF 8 st2
      generalize clz_probe 64 0x00FFFFFFFFFFFFFF 8 st2 = st3 at b3 ⊢
      have b4 := clz_probe_fst_bounds 64 0x0FFFFFFFFFFFFFFF 4 st3
      generalize clz_probe 64 0x0FFFFFFFFFFFFFFF 4 st3 = st4 at b4 ⊢
      have b5 := clz_probe_fst_bounds 64 0x3FFFFFFFFFFFFFFF 2 st4
      generalize clz_probe 64 0x3FFFFFFFFFFFFFFF 2 st4 = st5 at b5 ⊢
      have b6 := clz_probe_fst_bounds 64 0x7FFFFFFFFFFFFFFF 1 st5
      generalize clz_probe 64 0x7FFFFFFFFFFFFFFF 1 st5 = st6 at b6 ⊢
      omega
  · by_cases h : y = 0
    · subst h
      decide
    · simp only [apple_ctz, if_neg h]
      have h0 : ((63 : Int), y).1 = 63 := rfl
      generalize ((63 : Int), y) = st0 at h0 ⊢
      have b1 := ctz_probe_fst_bounds 0x00000000FFFFFFFF 32 st0
      generalize ctz_probe 0x00000000FFFFFFFF 32 st0 = st1 at b1 ⊢
      have b2 := ctz_probe_fst_bounds 0x000000000000FFFF 16 st1
      generalize ctz_probe 0x000000000000FFFF 16 st1 = st2 at b2 ⊢
      have b3 := ctz_probe_fst_bounds 0x00000000000000FF 8 st2
      generalize ctz_probe 0x00000000000000FF 8 st2 = st3 at b3 ⊢
      have b4 := ctz_probe_fst_bounds 0x000000000000000F 4 st3
      generalize ctz_probe 0x000000000000000F 4 st3 = st4 at b4 ⊢
      have b5 := ctz_probe_fst_bounds 0x0000000000000003 2 st4
      generalize ctz_probe 0x0000000000000003 2 st4 = st5 at b5 ⊢
      split <;> omega

/-- C17: on a nonzero operand the fallback trailing-zero count is one less than
a power of two: `arm_ctz x` is one of `0, 1, 3, 7, 15, 31`, and `31` whenever the
low 16 bits of `x` are zero; `apple_ctz y` is one of `0, 1, 3, 7, 15, 31, 63`,
and `63` whenever the low 32 bits of `y` are zero. -/
theorem ctz_one_less_than_pow_two (x y : Nat) (hx : x ≠ 0) (hy : y ≠ 0) :
    (arm_ctz x = 0 ∨ arm_ctz x = 1 ∨ arm_ctz x = 3 ∨ arm_ctz x = 7 ∨ arm_ctz x = 15 ∨
        arm_ctz x = 31) ∧
      (x % 2 ^ 16 = 0 → arm_ctz x = 31) ∧
      (apple_ctz y = 0 ∨ apple_ctz y = 1 ∨ apple_ctz y = 3 ∨ apple_ctz y = 7 ∨
        apple_ctz y = 15 ∨ apple_ctz y = 31 ∨ apple_ctz y = 63) ∧
      (y % 2 ^ 32 = 0 → apple_ctz y = 63) := by
  refine ⟨?_, ?_, ?_, ?_⟩
  · have i0 : CtzInv CtzVals32 (2 * 16) ((31 : Int), x) := Or.inl (by norm_num)
    have i1 := ctz_probe_inv (M := 0x0000FFFF) (s := 16) (by norm_num)
      (by unfold CtzVals32; norm_num) i0
    have i2 := ctz_probe_inv (M := 0x000000FF) (s := 8) (by norm_num)
      (by unfold CtzVals32; norm_num) i1
    have i3 := ctz_probe_inv (M := 0x0000000F) (s := 4) (by norm_num)
      (by unfold CtzVals32; norm_num) i2
    have i4 := ctz_probe_inv (M := 0x00000003) (s := 2) (by norm_num)
      (by unfold CtzVals32; norm_num) i3
    have i5 := ctz_probe_inv (M := 0x00000001) (s := 1) (by norm_num)
      (by unfold CtzVals32; norm_num) i4
    simp only [arm_ctz, if_neg hx]
    rw [ctz_last_eq]
    rcases i5 with h | ⟨h, -⟩
    · left
      rw [h]
      norm_num
    · exact h
  · intro h16
    have e1 : ctz_probe 0x0000FFFF 16 ((31 : Int), x) = (31, x) :=
      ctz_probe_skip (by norm_num) (show x % 2 ^ 16 = 0 from h16)
    have e2 : ctz_probe 0x000000FF 8 ((31 : Int), x) = (31, x) :=
      ctz_probe_skip (by norm_num) (show x % 2 ^ 8 = 0 by omega)
    have e3 : ctz_probe 0x0000000F 4 ((31 : Int), x) = (31, x) :=
      ctz_probe_skip (by norm_num) (show x % 2 ^ 4 = 0 by omega)
    have e4 : ctz_probe 0x00000003 2 ((31 : Int), x) = (31, x) :=
      ctz_probe_skip (by norm_num) (show x % 2 ^ 2 = 0 by omega)
    have e5 : ctz_probe 0x00000001 1 ((31 : Int), x) = (31, x) :=
      ctz_probe_skip (by norm_num) (show x % 2 ^ 1 = 0 by omega)
    simp only [arm_ctz, if_neg hx]
    rw [ctz_last_eq, e1, e2, e3, e4, e5]
  · have i0 : CtzInv CtzVals64 (2 * 32) ((63 : Int), y) := Or.inl (by norm_num)
    have i1 := ctz_probe_inv (M := 0x00000000FFFFFFFF) (s := 32) (by norm_num)
      (by unfold CtzVals64; norm_num) i0
    have i2 := ctz_probe_inv (M := 0x000000000000FFFF) (s := 16) (by norm_num)
      (by unfold CtzVals64; norm_num) i1
    have i3 := ctz_probe_inv (M := 0x00000000000000FF) (s := 8) (by norm_num)
      (by unfold CtzVals64; norm_num) i2
    have i4 := ctz_probe_inv (M := 0x000000000000000F) (s := 4) (by norm_num)
      (by unfold CtzVals64; norm_num) i3
    have i5 := ctz_probe_inv (M := 0x0000000000000003) (s := 2) (by norm_num)
      (by unfold CtzVals64; norm_num) i4
    have i6 := ctz_probe_inv (M := 0x0000000000000001) (s := 1) (by norm_num)
      (by unfold CtzVals64; norm_num) i5
    simp only [apple_ctz, if_neg hy]
    rw [ctz_last_eq]
    rcases i6 with h | ⟨h, -⟩
    · left
      rw [h]
      norm_num
    · exact h
  · intro h32
    have e1 : ctz_probe 0x00000000FFFFFFFF 32 ((63 : Int), y) = (63, y) :=
      ctz_probe_skip (by norm_num) (show y % 2 ^ 32 = 0 from h32)
    have e2 : ctz_probe 0x000000000000FFFF 16 ((63 : Int), y) = (63, y) :=
      ctz_probe_skip (by norm_num) (show y % 2 ^ 16 = 0 by omega)
    have e3 : ctz_probe 0x00000000000000FF 8 ((63 : Int), y) = (63, y) :=
      ctz_probe_skip (by norm_num) (show y % 2 ^ 8 = 0 by omega)
    have e4 : ctz_probe 0x000000000000000F 4 ((63 : Int), y) = (63, y) :=
      ctz_probe_skip (by norm_num) (show y % 2 ^ 4 = 0 by omega)
    have e5 : ctz_probe 0x0000000000000003 2 ((63 : Int), y) = (63, y) :=
      ctz_probe_skip (by norm_num) (show y % 2 ^ 2 = 0 by omega)
    have e6 : ctz_probe 0x0000000000000001 1 ((63 : Int), y) = (63, y) :=
      ctz_probe_skip (by norm_num) (show y % 2 ^ 1 = 0 by omega)
    simp only [apple_ctz, if_neg hy]
    rw [ctz_last_eq, e1, e2, e3, e4, e5, e6]

/-- Instance of C17 at `x = 0x00030000` and `y = 0x0000000500000000`, whose low
halves are zero. -/
theorem ctz_one_less_than_pow_two_witness :
    (0x00030000 : Nat) ≠ 0 ∧ (0x0000000500000000 : Nat) ≠ 0 ∧
      ((arm_ctz 0x00030000 = 0 ∨ arm_ctz 0x00030000 = 1 ∨ arm_ctz 0x00030000 = 3 ∨
          arm_ctz 0x00030000 = 7 ∨ arm_ctz 0x00030000 = 15 ∨ arm_ctz 0x00030000 = 31) ∧
        (0x00030000 % 2 ^ 16 = 0 → arm_ctz 0x00030000 = 31) ∧
        (apple_ctz 0x0000000500000000 = 0 ∨ apple_ctz 0x0000000500000000 = 1 ∨
          apple_ctz 0x0000000500000000 = 3 ∨ apple_ctz 0x0000000500000000 = 7 ∨
          apple_ctz 0x0000000500000000 = 15 ∨ apple_ctz 0x0000000500000000 = 31 ∨
          apple_ctz 0x0000000500000000 = 63) ∧
        (0x0000000500000000 % 2 ^ 32 = 0 → apple_ctz 0x0000000500000000 = 63)) :=
  ⟨by decide, by decide,
    ctz_one_less_than_pow_two 0x00030000 0x0000000500000000 (by decide) (by decide)⟩

/-- C18: the two widths of count_leading_zeros are consistent: for every
32-bit `x`, zero included, `apple_clz` of `x` zero-extended to 64 bits is
`32 + arm_clz x`. -/
theorem apple_clz_eq_arm_clz_add (x : Nat) (hx : x < 2 ^ 32) :
    apple_clz x = 32 + arm_clz x := by
  by_cases h0 : x = 0
  · subst h0
    decide
  · have h32 := arm_clz_add_log2 x h0 hx
    have h64 := apple_clz_add_log2 x h0 (lt_trans hx (by norm_num))
    omega

/-- Instance of C18 at `x = 0x00010000`. -/
theorem apple_clz_eq_arm_clz_add_witness :
    (0x00010000 : Nat) < 2 ^ 32 ∧ apple_clz 0x00010000 = 32 + arm_clz 0x00010000 :=
  ⟨by decide, apple_clz_eq_arm_clz_add 0x00010000 (by decide)⟩

/-- C15: trailing zeros of `x` are the leading zeros of the reversal of `x`:
for every 32-bit `x`, `arm_clz (arm_rbit x)` (the `int` of `arm_rbit` converted
back to `unsigned int`) is `32` when `x` is `0`, and otherwise the index of the
lowest set bit of `x`. -/
theorem arm_clz_rbit_eq_trailing_zeros (x : Nat) (hx : x < 2 ^ 32) :
    (x = 0 → arm_clz (to_uint (arm_rbit x)) = 32) ∧
      (x ≠ 0 → ∃ k : Nat, arm_clz (to_uint (arm_rbit x)) = (k : Int) ∧
        x.testBit k = true ∧ ∀ j, j < k → x.testBit j = false) := by
  constructor
  · intro h0
    subst h0
    decide
  · intro h0
    have hr0 : rbit_acc 32 x ≠ 0 := rbit_acc_ne_zero 32 x h0 hx
    have hrlt : rbit_acc 32 x < 2 ^ 32 := rbit_acc_lt 32 x
    have hL : Nat.log2 (rbit_acc 32 x) < 32 := log2_lt_of_lt _ _ hr0 hrlt
    have hclz := arm_clz_add_log2 (rbit_acc 32 x) hr0 hrlt
    refine ⟨31 - Nat.log2 (rbit_acc 32 x), ?_, ?_, ?_⟩
    · rw [to_uint_arm_rbit]
      omega
    · rw [testBit_of_rbit_acc 32 x _ hx]
      have h1 : 31 - Nat.log2 (rbit_acc 32 x) < 32 := by omega
      have h2 : 32 - 1 - (31 - Nat.log2 (rbit_acc 32 x)) = Nat.log2 (rbit_acc 32 x) := by
        omega
      rw [decide_eq_true h1, h2, testBit_log2_self _ hr0]
      rfl
    · intro j hj
      rw [testBit_of_rbit_acc 32 x _ hx, testBit_above_log2 _ _ (by omega)]
      simp

/-- Instance of C15 at `x = 8`, whose lowest set bit is bit 3. -/
theorem arm_clz_rbit_eq_trailing_zeros_witness :
    (8 : Nat) < 2 ^ 32 ∧
      ((8 = 0 → arm_clz (to_uint (arm_rbit 8)) = 32) ∧
        ((8 : Nat) ≠ 0 → ∃ k : Nat, arm_clz (to_uint (arm_rbit 8)) = (k : Int) ∧
          Nat.testBit 8 k = true ∧ ∀ j, j < k → Nat.testBit 8 j = false)) :=
  ⟨by decide, arm_clz_rbit_eq_trailing_zeros 8 (by decide)⟩

/-- C16: because `apple_rbit` returns `int`, its result is the low 32 bits of
the 64-bit reversal, the 32-bit reversal of the upper half of the operand:
`apple_rbit x` is `arm_rbit (x >> 32)` as `int` values, so two operands with
the same bits 32..63 have the same `apple_rbit`. -/
theorem apple_rbit_eq_arm_rbit_high (x y : Nat) (hy : y >>> 32 = x >>> 32) :
    apple_rbit x = arm_rbit (x >>> 32) ∧ apple_rbit y = apple_rbit x := by
  have key : ∀ z : Nat, apple_rbit z = arm_rbit (z >>> 32) := by
    intro z
    show to_int (rbit_acc 64 z) = to_int (rbit_acc 32 (z >>> 32))
    rw [← to_int_mod (rbit_acc 64 z), rbit_acc_64_low]
  refine ⟨key x, ?_⟩
  rw [key y, key x, hy]

/-- Instance of C16 at `x = 0x0000000100000000` and `y = 0x00000001FFFFFFFF`,
which differ in their low halves only. -/
theorem apple_rbit_eq_arm_rbit_high_witness :
    (0x00000001FFFFFFFF : Nat) >>> 32 = (0x0000000100000000 : Nat) >>> 32 ∧
      (apple_rbit 0x0000000100000000 = arm_rbit (0x0000000100000000 >>> 32) ∧
        apple_rbit 0x00000001FFFFFFFF = apple_rbit 0x0000000100000000) :=
  ⟨by decide, apple_rbit_eq_arm_rbit_high 0x0000000100000000 0x00000001FFFFFFFF (by decide)⟩

/-- C12, as stated, fails: on the zero operand `count_leading_zeros` and
`count_trailing_zeros` of the reversal are both the width, so their sum is twice
the width (`64` for the 32-bit routines, `128` for the 64-bit routines). -/
theorem clz_add_ctz_rbit_zero :
    arm_clz 0 + arm_ctz (to_uint (arm_rbit 0)) = 64 ∧
      apple_clz 0 + apple_ctz (to_ull (apple_rbit 0)) = 128 ∧
      (¬ ∀ x : Nat, x < 2 ^ 32 → arm_clz x + arm_ctz (to_uint (arm_rbit x)) = 32) ∧
      (¬ ∀ y : Nat, y < 2 ^ 64 → apple_clz y + apple_ctz (to_ull (apple_rbit y)) = 64) := by
  have h32 : arm_clz 0 + arm_ctz (to_uint (arm_rbit 0)) = 64 := by decide
  have h64 : apple_clz 0 + apple_ctz (to_ull (apple_rbit 0)) = 128 := by decide
  refine ⟨h32, h64, fun h => ?_, fun h => ?_⟩
  · have h1 := h 0 (by decide)
    rw [h32] at h1
    exact absurd h1 (by decide)
  · have h1 := h 0 (by decide)
    rw [h64] at h1
    exact absurd h1 (by decide)

/-- C12, amended: the leading-zero count of `x` equals the number of trailing
zero bits of the reversal of `x`, it is not the width minus it.  For a nonzero
32-bit `x`, `arm_clz x` is the index of the lowest set bit of `arm_rbit x`; for
a nonzero 64-bit `y`, `apple_clz y` is the index of the lowest set bit of the
64-bit reversal that the loop of `apple_rbit` computes; on the zero operand both
counts are the width and the sum is twice the width. -/
theorem clz_eq_trailing_zeros_of_rbit (x y : Nat) (hx0 : x ≠ 0) (hx : x < 2 ^ 32)
    (hy0 : y ≠ 0) (hy : y < 2 ^ 64) :
    (∃ k : Nat, arm_clz x = (k : Int) ∧ (to_uint (arm_rbit x)).testBit k = true ∧
        ∀ j, j < k → (to_uint (arm_rbit x)).testBit j = false) ∧
      (∃ k : Nat, apple_clz y = (k : Int) ∧ (rbit_acc 64 y).testBit k = true ∧
        ∀ j, j < k → (rbit_acc 64 y).testBit j = false) ∧
      arm_clz 0 + arm_ctz (to_uint (arm_rbit 0)) = 2 * 32 ∧
      apple_clz 0 + apple_ctz (to_ull (apple_rbit 0)) = 2 * 64 := by
  refine ⟨?_, ?_, by decide, by decide⟩
  · have hL : Nat.log2 x < 32 := log2_lt_of_lt _ _ hx0 hx
    have hclz := arm_clz_add_log2 x hx0 hx
    rw [to_uint_arm_rbit]
    refine ⟨31 - Nat.log2 x, by omega, ?_, ?_⟩
    · have h1 : 31 - Nat.log2 x < 32 := by omega
      have h2 : 32 - 1 - (31 - Nat.log2 x) = Nat.log2 x := by omega
      rw [rbit_acc_testBit, decide_eq_true h1, h2, testBit_log2_self _ hx0]
      rfl
    · intro j hj
      rw [rbit_acc_testBit, testBit_above_log2 _ _ (by omega)]
      simp
  · have hL : Nat.log2 y < 64 := log2_lt_of_lt _ _ hy0 hy
    have hclz := apple_clz_add_log2 y hy0 hy
    refine ⟨63 - Nat.log2 y, by omega, ?_, ?_⟩
    · have h1 : 63 - Nat.log2 y < 64 := by omega
      have h2 : 64 - 1 - (63 - Nat.log2 y) = Nat.log2 y := by omega
      rw [rbit_acc_testBit, decide_eq_true h1, h2, testBit_log2_self _ hy0]
      rfl
    · intro j hj
      rw [rbit_acc_testBit, testBit_above_log2 _ _ (by omega)]
      simp

/-- Instance of the amended C12 at `x = 1` and `y = 1`. -/
theorem clz_eq_trailing_zeros_of_rbit_witness :
    (1 : Nat) ≠ 0 ∧ (1 : Nat) < 2 ^ 32 ∧ (1 : Nat) < 2 ^ 64 ∧
      ((∃ k : Nat, arm_clz 1 = (k : Int) ∧ (to_uint (arm_rbit 1)).testBit k = true ∧
          ∀ j, j < k → (to_uint (arm_rbit 1)).testBit j = false) ∧
        (∃ k : Nat, apple_clz 1 = (k : Int) ∧ (rbit_acc 64 1).testBit k = true ∧
          ∀ j, j < k → (rbit_acc 64 1).testBit j = false) ∧
        arm_clz 0 + arm_ctz (to_uint (arm_rbit 0)) = 2 * 32 ∧
        apple_clz 0 + apple_ctz (to_ull (apple_rbit 0)) = 2 * 64) :=
  ⟨by decide, by decide, by decide,
    clz_eq_trailing_zeros_of_rbit 1 1 (by decide) (by decide) (by decide) (by decide)⟩

/-- C14, as stated, fails: `arm_rbit 1` is the negative `int` `-2147483648`, not
the reversal `2147483648` in `[0, 2 ^ 32)`, and `apple_rbit 1` is `0`, not the
64-bit reversal `2 ^ 63`. -/
theorem rbit_not_unsigned_at_one :
    arm_rbit 1 = -2147483648 ∧ hw_rbit 32 1 = 2147483648 ∧
      apple_rbit 1 = 0 ∧ hw_rbit 64 1 = 2 ^ 63 ∧
      (¬ ∀ x : Nat, x < 2 ^ 32 →
        0 ≤ arm_rbit x ∧ arm_rbit x < 2 ^ 32 ∧ arm_rbit x = (hw_rbit 32 x : Int)) ∧
      (¬ ∀ y : Nat, y < 2 ^ 64 →
        0 ≤ apple_rbit y ∧ apple_rbit y < 2 ^ 64 ∧ apple_rbit y = (hw_rbit 64 y : Int)) := by
  have h32 : arm_rbit 1 = -2147483648 := by decide
  have h64 : apple_rbit 1 = 0 := by decide
  have r64 : hw_rbit 64 1 = 2 ^ 63 := by decide
  refine ⟨h32, by decide, h64, r64, fun h => ?_, fun h => ?_⟩
  · have h1 := (h 1 (by decide)).1
    rw [h32] at h1
    exact absurd h1 (by decide)
  · have h1 := (h 1 (by decide)).2.2
    rw [h64, r64] at h1
    exact absurd h1 (by decide)

/-- C14, amended: `arm_rbit x` is the 32-bit reversal of `x` read as a two's
complement `int`: it lies in `[-2 ^ 31, 2 ^ 31)`, converted back to
`unsigned int` it is the reversal, which lies in `[0, 2 ^ 32)`, and it equals
the reversal numerically exactly when bit 0 of `x` is clear.  The loop of
`apple_rbit` leaves in its accumulator the 64-bit reversal of `y`, which lies in
`[0, 2 ^ 64)`. -/
theorem rbit_result_as_int (x y : Nat) :
    (-2 ^ 31 ≤ arm_rbit x ∧ arm_rbit x < 2 ^ 31) ∧
      (to_uint (arm_rbit x) = hw_rbit 32 x ∧ hw_rbit 32 x < 2 ^ 32) ∧
      (arm_rbit x = (hw_rbit 32 x : Int) ↔ x.testBit 0 = false) ∧
      (rbit_acc 64 y = hw_rbit 64 y ∧ hw_rbit 64 y < 2 ^ 64) := by
  refine ⟨to_int_range _, ⟨?_, ?_⟩, ?_, ⟨rbit_acc_eq_hw_rbit 64 y, ?_⟩⟩
  · rw [to_uint_arm_rbit, rbit_acc_eq_hw_rbit]
  · rw [← rbit_acc_eq_hw_rbit]
    exact rbit_acc_lt 32 x
  · show to_int (rbit_acc 32 x) = _ ↔ _
    rw [← rbit_acc_eq_hw_rbit, to_int_eq_self_iff _ (rbit_acc_lt 32 x),
      lt_half_iff_testBit _ (rbit_acc_lt 32 x), rbit_acc_testBit]
    simp
  · rw [← rbit_acc_eq_hw_rbit]
    exact rbit_acc_lt 64 y

end EngineM
